import Mathlib

/-!
Verification of the scalarff finite-field library.

The generic algorithms of `src/lib.rs` (`FieldElement::legendre`,
`FieldElement::sqrt`) and `src/functions.rs` (`quadratic_residues_at`) are
written against the `FieldElement` capability contract only.  We embed them
over the canonical model of a compliant backend, `ZMod p`: an element is its
residue class, `serialize`/`to_biguint` expose the canonical representative
`ZMod.val` in `[0, p)`, and field division is multiplication by the modular
inverse, exactly as the `custom_ring!` backend implements it with
`BigUint::modinv`.  The Rust loops are embedded fuel-based (a fuel-out result
models divergence; with the fuel used below they provably never fuel out for a
prime modulus), and panics are embedded as `none` / explicit error values.

The `custom_ring!` macro backend of `src/custom.rs` stores a raw `u128`
payload and is embedded separately as `CustomRing`, because its byte and
string codecs act on the raw payload without modular reduction.  The `oxfoi`
backend of `src/oxfoi.rs` wraps the external `twenty_first::BFieldElement`;
the wrapper code is embedded faithfully and the external element is modelled
from the capability contract (canonical value in `[0, P)`, `From<u64>`
reduces modulo `P`).
-/

namespace Scalarff

/-- Models `num_bigint::BigUint::modinv(m)`: the unique multiplicative inverse
in `[0, m)` when the argument is coprime to `m`, and `None` otherwise.  The
search realizes exactly that contract executably. -/
def modInv (m a : ℕ) : Option ℕ :=
  (List.range m).find? (fun y => a * y % m == 1)

/-- Field division as the `custom_ring!` backend implements it
(`src/custom.rs` lines 95-106): multiply by `modinv` of the divisor.  The
`None` branch panics ("Division by zero") in Rust; it is unreachable in every
verified code path (all divisors below are invertible), and is embedded as 0. -/
def fdiv (p : ℕ) (a b : ZMod p) : ZMod p :=
  match modInv p b.val with
  | some y => a * (y : ZMod p)
  | none => 0

/-- The generic default `FieldElement::prime()` (`src/lib.rs` lines 126-131):
`(-Self::one()).to_biguint() + 1`. -/
def primeModulus (p : ℕ) : ℕ :=
  (-1 : ZMod p).val + 1

/-- Embeds `FieldElement::legendre` (`src/lib.rs` lines 217-234).  `some 0` for the
zero element; otherwise the exponent is the integer view of the field element
`(-one()) / (one() + one())`, the base is the integer view of the element, and
the modular power is compared against `prime() - 1` and then `1`.  The
`panic!("legendre symbol is not 1, -1, or 0")` branch is embedded as `none`. -/
def legendre (p : ℕ) (x : ZMod p) : Option ℤ :=
  if x = 0 then some 0
  else
    let neg_one := primeModulus p - 1
    let e := (fdiv p (-1) (1 + 1)).val
    let a := x.val
    let l := a ^ e % primeModulus p
    if l = neg_one then some (-1)
    else if l = 1 then some 1
    else none

/-- Error outcomes of `FieldElement::sqrt`.  `noSquareRoot` is the
`panic!("legendre symbol is not 1: root does not exist or input is 0")`
precondition failure; `invariantViolation` is a panic propagated from
`legendre`; `outOfFuel` models divergence of one of the two unbounded loops. -/
inductive SqrtError where
  | noSquareRoot
  | invariantViolation
  | outOfFuel
deriving DecidableEq

instance {ε α : Type} [DecidableEq ε] [DecidableEq α] : DecidableEq (Except ε α) := fun a b =>
  match a, b with
  | Except.ok x, Except.ok y =>
    if h : x = y then Decidable.isTrue (congrArg Except.ok h)
    else Decidable.isFalse (fun hc => h (Except.ok.inj hc))
  | Except.error x, Except.error y =>
    if h : x = y then Decidable.isTrue (congrArg Except.error h)
    else Decidable.isFalse (fun hc => h (Except.error.inj hc))
  | Except.ok _, Except.error _ => Decidable.isFalse (fun hc => Except.noConfusion hc)
  | Except.error _, Except.ok _ => Decidable.isFalse (fun hc => Except.noConfusion hc)

/-- The non-residue search of `FieldElement::sqrt` (`src/lib.rs` lines
245-254): starting from `one() + one()` and incrementing by `one()` (in the
field, so the walk wraps modulo `p`), return the first element whose Legendre
symbol is `-1`.  The Rust loop is unbounded; fuel `p` visits every residue
class. -/
def findNonResidue (p : ℕ) : ZMod p → ℕ → Option (ZMod p)
  | _, 0 => none
  | x, fuel + 1 =>
    if legendre p x = some (-1) then some x
    else findNonResidue p (x + 1) fuel

/-- The exponent-halving loop of `FieldElement::sqrt` (`src/lib.rs` lines
262-276).  `a` and `b` are the integer views of the input and of the
non-residue witness; `apow` and `bpow` are maintained as field elements and
halved with field division by `one() + one()`; the correction step adds
`m = (-one()) / (one() + one())` whenever `a^apow * b^bpow ≡ -1 (mod p)`.
The loop runs while the integer view of `apow` is even. -/
def sqrtLoop (p : ℕ) (a b : ℕ) (m : ZMod p) :
    ZMod p → ZMod p → ℕ → Option (ZMod p × ZMod p)
  | _, _, 0 => none
  | apow, bpow, fuel + 1 =>
    if apow.val % 2 = 0 then
      let apow2 := fdiv p apow (1 + 1)
      let bpow2 := fdiv p bpow (1 + 1)
      let a2 := a ^ apow2.val % primeModulus p
      let b2 := b ^ bpow2.val % primeModulus p
      let bpow3 := if a2 * b2 % primeModulus p = primeModulus p - 1 then bpow2 + m else bpow2
      sqrtLoop p a b m apow2 bpow3 fuel
    else some (apow, bpow)

/-- Embeds `FieldElement::sqrt` (`src/lib.rs` lines 238-294), Kumar's prime-field
square-root algorithm.  Zero maps to zero; a Legendre symbol other than `1`
fails with `noSquareRoot`; otherwise a non-residue is searched, the halving
loop is run from `apow = -one()`, `bpow = zero()`, and after the final
exponent fix-up the smaller of `root` and `prime() - root` is converted back
to a field element (`from_biguint`, i.e. a reducing cast for a compliant
backend). -/
def sqrt (p : ℕ) (x : ZMod p) : Except SqrtError (ZMod p) :=
  if x = 0 then Except.ok 0
  else
    match legendre p x with
    | none => Except.error SqrtError.invariantViolation
    | some l =>
      if l ≠ 1 then Except.error SqrtError.noSquareRoot
      else
        match findNonResidue p (1 + 1) p with
        | none => Except.error SqrtError.outOfFuel
        | some nr =>
          let b := nr.val
          let a := x.val
          let m := fdiv p (-1) (1 + 1)
          match sqrtLoop p a b m (-1) 0 p with
          | none => Except.error SqrtError.outOfFuel
          | some st =>
            let apow2 := fdiv p (st.1 + 1) (1 + 1)
            let bpow2 := fdiv p st.2 (1 + 1)
            let a2 := a ^ apow2.val % primeModulus p
            let b2 := b ^ bpow2.val % primeModulus p
            let root := a2 * b2 % primeModulus p
            let other := primeModulus p - root
            if root > other then Except.ok ((other : ZMod p))
            else Except.ok ((root : ZMod p))

/-- The candidate loop of `quadratic_residues_at` (`src/functions.rs` lines
5-34).  While fewer than `count` triples are collected: build the element
`from_usize(x)` (a compliant backend reduces the integer modulo `p`), classify
it with `legendre`, and on a residue push `(element, sqrt(element),
-sqrt(element))` after the three `assert_eq!` checks (embedded as a guard
whose failure, like any panic, yields `none`).  The Rust loop is unbounded in
`x`; fuel models it. -/
def scanLoop (p : ℕ) (count : ℕ) :
    ℕ → List (ZMod p × ZMod p × ZMod p) → ℕ → Option (List (ZMod p × ZMod p × ZMod p))
  | _, _, 0 => none
  | x, out, fuel + 1 =>
    if out.length < count then
      let element : ZMod p := (x : ZMod p)
      let l := legendre p element
      if l = some (-1) then scanLoop p count (x + 1) out fuel
      else if l = some 1 then
        match sqrt p element with
        | Except.error _ => none
        | Except.ok low_root =>
          let high_root := -low_root
          if element = low_root * low_root ∧ element = high_root * high_root ∧
              -element = low_root * high_root then
            scanLoop p count (x + 1) (out ++ [(element, low_root, high_root)]) fuel
          else none
      else if l = some 0 then scanLoop p count (x + 1) out fuel
      else none
    else some out

/-- Embeds `quadratic_residues_at::<T>(start, count)` (`src/functions.rs`). -/
def quadratic_residues_at (p : ℕ) (start count fuel : ℕ) :
    Option (List (ZMod p × ZMod p × ZMod p)) :=
  scanLoop p count start [] fuel

/-- The root the scanner stores for candidate `z`: the value returned by
`sqrt` on the field element of `z` (the error branch, provably unreachable on
a residue, is mapped to 0).  Used to state what `quadratic_residues_at`
produces. -/
def rootOf (p : ℕ) (z : ℕ) : ZMod p :=
  match sqrt p ((z : ℕ) : ZMod p) with
  | Except.ok r => r
  | Except.error _ => 0

/-- Whether candidate integer `z` is classified as a quadratic residue by the
scanner, i.e. `legendre(from_usize(z)) == 1`.  Used to state which candidates
`quadratic_residues_at` keeps. -/
def isResidueAt (p : ℕ) (z : ℕ) : Bool :=
  decide (legendre p ((z : ℕ) : ZMod p) = some 1)

/-- Embeds `FieldElement::lower60_string` (`src/lib.rs` lines 175-189): render the
canonical integer view modulo `2^60` suffixed with `_L60`, unless the plain
decimal `serialize()` string is at most 3 characters longer, in which case the
plain string is returned. -/
def lower60_string (p : ℕ) (x : ZMod p) : String :=
  let two_pow : ℕ := 2 ^ 60
  let plain_str := Nat.repr x.val
  let l60_str := Nat.repr (x.val % two_pow) ++ "_L60"
  if l60_str.length + 3 < plain_str.length then l60_str else plain_str

/-- Little-endian bytes of a value at a fixed width, as `u128::to_le_bytes`
(width 16) and `u64::to_le_bytes` (width 8) produce them. -/
def natToBytesLE : ℕ → ℕ → List ℕ
  | 0, _ => []
  | w + 1, v => v % 256 :: natToBytesLE w (v / 256)

/-- Value of a little-endian byte string, as `u128::from_le_bytes` /
`u64::from_le_bytes` read it. -/
def bytesToNatLE : List ℕ → ℕ
  | [] => 0
  | byte :: bs => byte + 256 * bytesToNatLE bs

/-- Minimal little-endian bytes of a `num_bigint::BigUint`
(`BigUint::to_bytes_le`); fuel-based structural recursion, zero encodes as
`[0]`. -/
def natBytesLEMinAux : ℕ → ℕ → List ℕ
  | 0, _ => []
  | fuel + 1, v => if v = 0 then [] else v % 256 :: natBytesLEMinAux fuel (v / 256)

/-- Minimal little-endian byte encoding of a natural number, `[0]` for zero,
matching `BigUint::to_bytes_le`. -/
def natBytesLEMin (v : ℕ) : List ℕ :=
  if v = 0 then [0] else natBytesLEMinAux v v

/-- Digit-by-digit core of `str::parse::<u128>`: consume decimal digits,
failing on a non-digit character and on overflow past `u128::MAX`. -/
def parseDecimalAux : List Char → ℕ → Option ℕ
  | [], acc => some acc
  | c :: cs, acc =>
    if c.isDigit then
      let acc2 := acc * 10 + (c.toNat - 48)
      if acc2 < 2 ^ 128 then parseDecimalAux cs acc2 else none
    else none

/-- Models `str::parse::<u128>()` as used by the `custom_ring!` backend's
`deserialize`/`from_str`: the empty string and any non-digit character are
parse errors, and the value must fit in a `u128`.  (Rust's parser also accepts
a leading sign character, which never occurs in a `serialize()` output.) -/
def parseU128 (s : String) : Option ℕ :=
  match s.data with
  | [] => none
  | c :: cs => parseDecimalAux (c :: cs) 0

/-- An element produced by the `custom_ring!` macro (`src/custom.rs`): a raw
`u128` payload.  The arithmetic impls keep the payload below the modulus, but
the byte codec does not reduce, so the payload is *not* invariantly below the
modulus. -/
structure CustomRing (m : ℕ) where
  value : ℕ
deriving DecidableEq

namespace CustomRing

/-- The `zero()` impl of `custom_ring!`. -/
def zero (m : ℕ) : CustomRing m := ⟨0⟩

/-- The `one()` impl of `custom_ring!`. -/
def one (m : ℕ) : CustomRing m := ⟨1⟩

/-- The `Add` impl of `custom_ring!`: `(self.0 + other.0) % modulus`. -/
def add {m : ℕ} (a b : CustomRing m) : CustomRing m := ⟨(a.value + b.value) % m⟩

/-- The `Sub` impl of `custom_ring!`: `(self.0 + modulus - other.0) % modulus`. -/
def sub {m : ℕ} (a b : CustomRing m) : CustomRing m := ⟨(a.value + m - b.value) % m⟩

/-- The `Mul` impl of `custom_ring!`: `(self.0 * other.0) % modulus`. -/
def mul {m : ℕ} (a b : CustomRing m) : CustomRing m := ⟨(a.value * b.value) % m⟩

/-- The `Neg` impl of `custom_ring!`: `(modulus - self.0) % modulus`. -/
def neg {m : ℕ} (a : CustomRing m) : CustomRing m := ⟨(m - a.value) % m⟩

/-- The `From<u64>` impl of `custom_ring!`: the raw value, with no reduction. -/
def fromU64 {m : ℕ} (v : ℕ) : CustomRing m := ⟨v⟩

/-- The `serialize` impl of `custom_ring!`: `self.0.to_string()`. -/
def serialize {m : ℕ} (a : CustomRing m) : String := Nat.repr a.value

/-- The `deserialize` impl of `custom_ring!`: `str.parse::<u128>().unwrap()`; the
panic on a malformed string is embedded as `none`. -/
def deserialize (m : ℕ) (s : String) : Option (CustomRing m) :=
  (parseU128 s).map (fun v => (⟨v⟩ : CustomRing m))

/-- The `to_bytes_le` impl of `custom_ring!`: `self.0.to_le_bytes().to_vec()`, always
16 bytes. -/
def to_bytes_le {m : ℕ} (a : CustomRing m) : List ℕ := natToBytesLE 16 a.value

/-- The `from_bytes_le` impl of `custom_ring!` (`src/custom.rs` lines 42-48): pad short
inputs with zero bytes to length 16; more than 16 bytes makes the
`try_into().unwrap()` panic (embedded as `none`).  The decoded `u128` is
*not* reduced modulo the modulus. -/
def from_bytes_le (m : ℕ) (bs : List ℕ) : Option (CustomRing m) :=
  if 16 < bs.length then none else some ⟨bytesToNatLE bs⟩

/-- The generic `FieldElement::to_biguint` (`src/lib.rs` lines 148-152)
instantiated at the `custom_ring!` backend:
`BigUint::from_bytes_le(self.to_bytes_le())`. -/
def to_biguint {m : ℕ} (a : CustomRing m) : ℕ := bytesToNatLE (to_bytes_le a)

/-- The generic `FieldElement::from_biguint` (`src/lib.rs` lines 156-158)
instantiated at the `custom_ring!` backend:
`Self::from_bytes_le(&v.to_bytes_le())`. -/
def from_biguint (m : ℕ) (v : ℕ) : Option (CustomRing m) :=
  from_bytes_le m (natBytesLEMin v)

end CustomRing

/-- The Goldilocks prime `BFieldElement::P = 2^64 - 2^32 + 1` used by the
`oxfoi` backend (`src/oxfoi.rs` line 31). -/
def goldilocksP : ℕ := 18446744069414584321

/-- The `oxfoi` backend (`src/oxfoi.rs`), a wrapper around the external
`twenty_first::BFieldElement`.  The external element is modelled from the
capability contract: it holds a canonical value in `[0, P)`, `value()`
returns it, and `BFieldElement::from(u64)` reduces modulo `P`. -/
structure OxfoiElt where
  value : ℕ
deriving DecidableEq

namespace OxfoiElt

/-- The `serialize` impl of the `oxfoi` backend: `self.0.value().to_string()`. -/
def serialize (a : OxfoiElt) : String := Nat.repr a.value

/-- The `deserialize` impl of the `oxfoi` backend: `BFieldElement::from_str(str)`,
modelled from the contract as parsing a decimal `u64` and reducing modulo
`P`; a malformed string panics via `unwrap()` (embedded as `none`). -/
def deserialize (s : String) : Option OxfoiElt :=
  match parseU128 s with
  | some v => if v < 2 ^ 64 then some ⟨v % goldilocksP⟩ else none
  | none => none

/-- The `to_bytes_le` impl of the `oxfoi` backend: `self.0.value().to_le_bytes()`,
always 8 bytes. -/
def to_bytes_le (a : OxfoiElt) : List ℕ := natToBytesLE 8 a.value

/-- The `from_bytes_le` impl of the `oxfoi` backend (`src/oxfoi.rs` lines 46-58): more
than 8 bytes panics (embedded as `none`); shorter inputs are zero-padded to 8
bytes, decoded as a `u64` and fed to `BFieldElement::from`, which reduces
modulo `P` (modelled from the contract). -/
def from_bytes_le (bs : List ℕ) : Option OxfoiElt :=
  if 8 < bs.length then none else some ⟨bytesToNatLE bs % goldilocksP⟩

end OxfoiElt

/-- Fuel-based fast modular exponentiation, used only to certify the
primality of `goldilocksP` inside the development (kernel-reducible, unlike
a definition by well-founded recursion). -/
def powModAux (m a : ℕ) : ℕ → ℕ → ℕ
  | _, 0 => 1 % m
  | e, fuel + 1 =>
    if e = 0 then 1 % m
    else
      let h := powModAux m (a * a % m) (e / 2) fuel
      if e % 2 = 1 then a % m * h % m else h

/-- Modular exponentiation `a ^ e % m` by binary squaring. -/
def powMod (m a e : ℕ) : ℕ := powModAux m a e (e + 1)

/-- The loop invariant of `sqrtLoop`, for input `x` and non-residue witness
`b`: the integer view of `apow` is `(p-1)/2^i` exactly, the integer view of
`bpow` is a multiple `k * apow.val` with `k < 2^i`, and
`x^apow.val * b^bpow.val = 1` in the field. -/
def SqrtInv (p : ℕ) (x b apow bpow : ZMod p) : Prop :=
  ∃ i k : ℕ, apow.val * 2 ^ i = p - 1 ∧ bpow.val = k * apow.val ∧ k < 2 ^ i ∧
    x ^ apow.val * b ^ bpow.val = 1

theorem val_neg_one_eq {p : ℕ} (hp : 0 < p) : (-1 : ZMod p).val = p - 1 := by
  obtain ⟨q, rfl⟩ := Nat.exists_eq_succ_of_ne_zero hp.ne'
  rw [ZMod.val_neg_one]
  omega

theorem primeModulus_eq (p : ℕ) (hp : 0 < p) : primeModulus p = p := by
  rw [primeModulus, val_neg_one_eq hp]
  omega

theorem neg_one_natCast {p : ℕ} (hp : 0 < p) : ((p - 1 : ℕ) : ZMod p) = -1 := by
  have h1 : (1 : ℕ) ≤ p := hp
  push_cast [Nat.cast_sub h1]
  simp

theorem val_eq_neg_one_iff {p : ℕ} [NeZero p] (w : ZMod p) :
    w.val = p - 1 ↔ w = -1 := by
  constructor
  · intro h
    have := ZMod.natCast_zmod_val w
    rw [h, neg_one_natCast (Nat.pos_of_ne_zero (NeZero.ne p))] at this
    exact this.symm
  · intro h
    rw [h, val_neg_one_eq (Nat.pos_of_ne_zero (NeZero.ne p))]

theorem modInv_of_unit {p : ℕ} [Fact p.Prime] (b : ZMod p) (hb : b ≠ 0) :
    ∃ y, modInv p b.val = some y ∧ (y : ZMod p) = b⁻¹ := by
  haveI : Fact (1 < p) := ⟨(Fact.out : p.Prime).one_lt⟩
  have hmem : (b⁻¹).val ∈ List.range p := List.mem_range.mpr (ZMod.val_lt _)
  have hpred : (b.val * (b⁻¹).val % p == 1) = true := by
    have hmul : (b * b⁻¹ : ZMod p) = 1 := mul_inv_cancel₀ hb
    have : (b * b⁻¹ : ZMod p).val = b.val * (b⁻¹).val % p := ZMod.val_mul b b⁻¹
    rw [hmul, ZMod.val_one] at this
    exact beq_iff_eq.mpr this.symm
  have hsome : (modInv p b.val).isSome = true := by
    rw [modInv, List.find?_isSome]
    exact ⟨(b⁻¹).val, hmem, hpred⟩
  obtain ⟨y, hy⟩ := Option.isSome_iff_exists.mp hsome
  refine ⟨y, hy, ?_⟩
  rw [modInv] at hy
  have hyeq := List.find?_some hy
  simp only [beq_iff_eq] at hyeq
  have hyeq2 : b.val * y % p = 1 := hyeq
  have hcast : ((b.val * y % p : ℕ) : ZMod p) = ((1 : ℕ) : ZMod p) := by rw [hyeq2]
  rw [ZMod.natCast_mod, Nat.cast_mul, ZMod.natCast_zmod_val, Nat.cast_one] at hcast
  exact eq_inv_of_mul_eq_one_right hcast

theorem fdiv_of_unit {p : ℕ} [Fact p.Prime] (a b : ZMod p) (hb : b ≠ 0) :
    fdiv p a b = a * b⁻¹ := by
  obtain ⟨y, hy, hyv⟩ := modInv_of_unit b hb
  simp [fdiv, hy, hyv]

theorem two_eq_natCast {p : ℕ} : (1 + 1 : ZMod p) = ((2 : ℕ) : ZMod p) := by
  push_cast
  ring

theorem two_ne_zero_mod {p : ℕ} [NeZero p] (h2 : 2 < p) : (1 + 1 : ZMod p) ≠ 0 := by
  rw [two_eq_natCast]
  intro h
  have := ZMod.val_cast_of_lt h2
  rw [h, ZMod.val_zero] at this
  omega

theorem halve_val {p : ℕ} [Fact p.Prime] (h2 : 2 < p) (y : ZMod p) (hy : y.val % 2 = 0) :
    (fdiv p y (1 + 1)).val = y.val / 2 := by
  have htwo : (1 + 1 : ZMod p) ≠ 0 := two_ne_zero_mod h2
  rw [fdiv_of_unit y _ htwo]
  have hdvd : y.val / 2 * 2 = y.val := Nat.div_mul_cancel (Nat.dvd_of_mod_eq_zero hy)
  have hmul : ((y.val / 2 : ℕ) : ZMod p) * (1 + 1) = y := by
    rw [two_eq_natCast, ← Nat.cast_mul, hdvd, ZMod.natCast_zmod_val]
  have hres : ((y.val / 2 : ℕ) : ZMod p) = y * (1 + 1)⁻¹ :=
    (eq_mul_inv_iff_mul_eq₀ htwo).mpr hmul
  rw [← hres, ZMod.val_cast_of_lt]
  exact lt_of_le_of_lt (Nat.div_le_self _ _) (ZMod.val_lt y)

theorem exp_val {p : ℕ} [Fact p.Prime] (h2 : 2 < p) :
    (fdiv p (-1 : ZMod p) (1 + 1)).val = (p - 1) / 2 := by
  have hodd : Odd p := (Fact.out : p.Prime).odd_of_ne_two (by omega)
  have heven : (-1 : ZMod p).val % 2 = 0 := by
    rw [val_neg_one_eq (by omega)]
    obtain ⟨k, hk⟩ := hodd
    omega
  rw [halve_val h2 _ heven, val_neg_one_eq (by omega : 0 < p)]

theorem val_pow_bridge {p : ℕ} [NeZero p] (x : ZMod p) (n : ℕ) :
    x.val ^ n % p = (x ^ n : ZMod p).val := by
  conv_rhs => rw [← ZMod.natCast_zmod_val x]
  rw [← Nat.cast_pow, ZMod.val_natCast]

theorem test_bridge {p : ℕ} [NeZero p] (x b : ZMod p) (u v : ℕ) :
    x.val ^ u % primeModulus p * (b.val ^ v % primeModulus p) % primeModulus p =
      (x ^ u * b ^ v : ZMod p).val := by
  have hp : 0 < p := Nat.pos_of_ne_zero (NeZero.ne p)
  rw [primeModulus_eq p hp, val_pow_bridge, val_pow_bridge, ZMod.val_mul]

theorem legendre_zero (p : ℕ) : legendre p 0 = some 0 := by
  simp [legendre]

theorem half_add_half {p : ℕ} [Fact p.Prime] (h2 : 2 < p) :
    (p - 1) / 2 + (p - 1) / 2 = p - 1 := by
  obtain ⟨k, hk⟩ := (Fact.out : p.Prime).odd_of_ne_two (by omega)
  omega

theorem legendre_form {p : ℕ} [Fact p.Prime] (h2 : 2 < p) (x : ZMod p) (hx : x ≠ 0) :
    legendre p x =
      if (x ^ ((p - 1) / 2) : ZMod p).val = p - 1 then some (-1)
      else if (x ^ ((p - 1) / 2) : ZMod p).val = 1 then some 1
      else none := by
  simp only [legendre, if_neg hx]
  rw [exp_val h2, primeModulus_eq p (by omega), val_pow_bridge]

theorem legendre_char {p : ℕ} [Fact p.Prime] (h2 : 2 < p) (x : ZMod p) (hx : x ≠ 0) :
    (legendre p x = some 1 ↔ x ^ ((p - 1) / 2) = 1) ∧
    (legendre p x = some (-1) ↔ x ^ ((p - 1) / 2) = -1) ∧
    (x ^ ((p - 1) / 2) = 1 ∨ x ^ ((p - 1) / 2) = -1) := by
  haveI : Fact (1 < p) := ⟨by omega⟩
  haveI : Fact (2 < p) := ⟨h2⟩
  set w := (x ^ ((p - 1) / 2) : ZMod p) with hw
  have hdich : w = 1 ∨ w = -1 := by
    have hmul : w * w = 1 := by
      rw [hw, ← pow_add, half_add_half h2]
      exact ZMod.pow_card_sub_one_eq_one hx
    exact mul_self_eq_one_iff.mp hmul
  have hne : (1 : ZMod p) ≠ -1 := fun h => ZMod.neg_one_ne_one h.symm
  have hform := legendre_form h2 x hx
  refine ⟨?_, ?_, hdich⟩ <;> rcases hdich with h1 | h1
  · have hv1 : w.val = 1 := by rw [h1, ZMod.val_one]
    have hvne : ¬ w.val = p - 1 := fun hc => hne ((val_eq_neg_one_iff w).mp hc ▸ h1).symm
    rw [hform, if_neg hvne, if_pos hv1]
    simp [h1]
  · have hv : w.val = p - 1 := (val_eq_neg_one_iff w).mpr h1
    rw [hform, if_pos hv]
    constructor
    · intro hc
      exact absurd (Option.some_injective _ hc) (by decide)
    · intro hc
      exact absurd (hc ▸ h1 : (1 : ZMod p) = -1) hne
  · have hv1 : w.val = 1 := by rw [h1, ZMod.val_one]
    have hvne : ¬ w.val = p - 1 := fun hc => hne ((val_eq_neg_one_iff w).mp hc ▸ h1).symm
    rw [hform, if_neg hvne, if_pos hv1]
    constructor
    · intro hc
      exact absurd (Option.some_injective _ hc) (by decide)
    · intro hc
      exact absurd (h1 ▸ hc : (1 : ZMod p) = -1) hne
  · have hv : w.val = p - 1 := (val_eq_neg_one_iff w).mpr h1
    rw [hform, if_pos hv]
    simp [h1]

theorem half_eq_card_half {p : ℕ} [Fact p.Prime] (h2 : 2 < p) :
    p / 2 = (p - 1) / 2 := by
  obtain ⟨k, hk⟩ := (Fact.out : p.Prime).odd_of_ne_two (by omega)
  omega

theorem legendre_one_iff {p : ℕ} [Fact p.Prime] (h2 : 2 < p) (x : ZMod p) (hx : x ≠ 0) :
    legendre p x = some 1 ↔ IsSquare x := by
  rw [(legendre_char h2 x hx).1, ← half_eq_card_half h2]
  exact (ZMod.euler_criterion p hx).symm

theorem legendre_neg_one_iff {p : ℕ} [Fact p.Prime] (h2 : 2 < p) (x : ZMod p) (hx : x ≠ 0) :
    legendre p x = some (-1) ↔ ¬ IsSquare x := by
  obtain ⟨hiff1, hiff2, hdich⟩ := legendre_char h2 x hx
  haveI : Fact (2 < p) := ⟨h2⟩
  have hne : (1 : ZMod p) ≠ -1 := fun h => ZMod.neg_one_ne_one h.symm
  rw [hiff2]
  rw [← half_eq_card_half h2] at hdich ⊢
  constructor
  · intro h hsq
    have h1 : x ^ (p / 2) = 1 := (ZMod.euler_criterion p hx).mp hsq
    rw [h1] at h
    exact hne h
  · intro hsq
    rcases hdich with h1 | h1
    · exact absurd ((ZMod.euler_criterion p hx).mpr h1) hsq
    · exact h1

theorem two_lt_of_legendre_one {p : ℕ} [Fact p.Prime] (x : ZMod p)
    (hx : legendre p x = some 1) : 2 < p := by
  have hp2 : 2 ≤ p := (Fact.out : p.Prime).two_le
  rcases eq_or_lt_of_le hp2 with h | h
  · subst h
    revert hx
    revert x
    decide
  · exact h

theorem exists_nonresidue {p : ℕ} [Fact p.Prime] (h2 : 2 < p) :
    ∃ b : ZMod p, legendre p b = some (-1) := by
  have hchar : ringChar (ZMod p) ≠ 2 := by
    rw [ZMod.ringChar_zmod_n]
    omega
  obtain ⟨b, hb⟩ := FiniteField.exists_nonsquare hchar
  have hb0 : b ≠ 0 := fun h => hb (h ▸ ⟨0, (zero_mul 0).symm⟩)
  exact ⟨b, (legendre_neg_one_iff h2 b hb0).mpr hb⟩

theorem findNonResidue_spec {p : ℕ} :
    ∀ (fuel : ℕ) (z : ZMod p), (∃ i < fuel, legendre p (z + (i : ℕ)) = some (-1)) →
    ∃ nr, findNonResidue p z fuel = some nr ∧ legendre p nr = some (-1) := by
  intro fuel
  induction fuel with
  | zero =>
    rintro z ⟨i, hi, _⟩
    omega
  | succ n ih =>
    rintro z ⟨i, hi, hleg⟩
    by_cases h : legendre p z = some (-1)
    · exact ⟨z, by simp [findNonResidue, h], h⟩
    · have hi0 : i ≠ 0 := by
        rintro rfl
        rw [Nat.cast_zero, add_zero] at hleg
        exact h hleg
      obtain ⟨j, rfl⟩ := Nat.exists_eq_succ_of_ne_zero hi0
      have hshift : z + ((j + 1 : ℕ) : ZMod p) = (z + 1) + (j : ℕ) := by
        push_cast
        ring
      rw [hshift] at hleg
      obtain ⟨nr, h1, hleg2⟩ := ih (z + 1) ⟨j, by omega, hleg⟩
      exact ⟨nr, by simp [findNonResidue, h, h1], hleg2⟩

theorem findNonResidue_ok {p : ℕ} [Fact p.Prime] (h2 : 2 < p) :
    ∃ nr, findNonResidue p (1 + 1) p = some nr ∧ legendre p nr = some (-1) := by
  obtain ⟨b, hb⟩ := exists_nonresidue h2
  apply findNonResidue_spec p (1 + 1)
  refine ⟨(b - (1 + 1)).val, ZMod.val_lt _, ?_⟩
  rw [ZMod.natCast_zmod_val]
  rw [add_sub_cancel]
  exact hb

theorem sqrtLoop_spec {p : ℕ} [Fact p.Prime] (h2 : 2 < p) (x b : ZMod p)
    (hb : b ^ ((p - 1) / 2) = -1) :
    ∀ (fuel : ℕ) (apow bpow : ZMod p), SqrtInv p x b apow bpow → apow.val < 2 ^ fuel →
    ∃ st, sqrtLoop p x.val b.val (fdiv p (-1) (1 + 1)) apow bpow fuel = some st ∧
      SqrtInv p x b st.1 st.2 ∧ st.1.val % 2 = 1 := by
  intro fuel
  induction fuel with
  | zero =>
    intro apow bpow hinv hlt
    exfalso
    obtain ⟨i, k, hiA, _, _, _⟩ := hinv
    have hone : (2 : ℕ) ^ 0 = 1 := pow_zero 2
    have h0 : apow.val = 0 := by omega
    rw [h0, zero_mul] at hiA
    omega
  | succ n ih =>
    intro apow bpow hinv hlt
    obtain ⟨i, k, hiA, hiB, hiK, hiP⟩ := hinv
    by_cases hev : apow.val % 2 = 0
    · -- halving step
      have hAne : apow.val ≠ 0 := by
        intro h0
        rw [h0, zero_mul] at hiA
        omega
      set A := apow.val with hA
      set hf := A / 2 with hhf
      have hA2 : A = 2 * hf := by omega
      have hpos : 0 < hf := by omega
      have hval2 : (fdiv p apow (1 + 1)).val = hf := halve_val h2 apow hev
      have hBev : bpow.val % 2 = 0 := by
        have hdd : (2 : ℕ) ∣ k * A := Dvd.dvd.mul_left (Nat.dvd_of_mod_eq_zero hev) k
        rw [hiB]
        omega
      have hvalB : (fdiv p bpow (1 + 1)).val = k * hf := by
        rw [halve_val h2 bpow hBev, hiB, hA2,
          Nat.mul_div_assoc k (dvd_mul_right 2 hf),
          Nat.mul_div_cancel_left hf (by omega)]
      -- the invariant value after halving
      set u : ZMod p := x ^ hf * b ^ (k * hf) with hu
      have hiP2 : x ^ A * b ^ (k * A) = 1 := by
        rw [← hiB]
        exact hiP
      have huu : u * u = 1 := by
        rw [hu, mul_mul_mul_comm, ← pow_add, ← pow_add,
          show hf + hf = A by omega,
          show k * hf + k * hf = k * A by rw [hA2]; ring]
        exact hiP2
      have hdich : u = 1 ∨ u = -1 := mul_self_eq_one_iff.mp huu
      -- the branch test equals the value of u
      have htest : x.val ^ (fdiv p apow (1 + 1)).val % primeModulus p *
          (b.val ^ (fdiv p bpow (1 + 1)).val % primeModulus p) % primeModulus p =
          u.val := by
        rw [hval2, hvalB, test_bridge]
      have hm : (fdiv p (-1 : ZMod p) (1 + 1)).val = (p - 1) / 2 := exp_val h2
      -- powers of two bookkeeping
      have hhalf : (p - 1) / 2 = hf * 2 ^ i := by
        have heq : A * 2 ^ i = 2 * (hf * 2 ^ i) := by
          rw [hA2]
          ring
        omega
      have hiA2 : (fdiv p apow (1 + 1)).val * 2 ^ (i + 1) = p - 1 := by
        rw [hval2, pow_succ]
        calc hf * (2 ^ i * 2) = 2 * hf * 2 ^ i := by ring
        _ = A * 2 ^ i := by rw [← hA2]
        _ = p - 1 := hiA
      have hiA3 : hf * 2 ^ (i + 1) = p - 1 := by
        rw [hval2] at hiA2
        exact hiA2
      have hfuel2 : (fdiv p apow (1 + 1)).val < 2 ^ n := by
        have hp2 : (2 : ℕ) ^ (n + 1) = 2 * 2 ^ n := by ring
        rw [hval2]
        omega
      by_cases hcond : x.val ^ (fdiv p apow (1 + 1)).val % primeModulus p *
          (b.val ^ (fdiv p bpow (1 + 1)).val % primeModulus p) % primeModulus p =
          primeModulus p - 1
      · -- correction step taken: u = -1
        have hu1 : u = -1 := by
          rw [htest, primeModulus_eq p (by omega)] at hcond
          exact (val_eq_neg_one_iff u).mp hcond
        have hkb : (2 : ℕ) ^ (i + 1) = 2 ^ i + 2 ^ i := by ring
        have hsum : (fdiv p bpow (1 + 1)).val + (fdiv p (-1 : ZMod p) (1 + 1)).val =
            (k + 2 ^ i) * hf := by
          rw [hvalB, hm, hhalf]
          ring
        have hlt2 : (k + 2 ^ i) * hf < p - 1 := by
          calc (k + 2 ^ i) * hf < 2 ^ (i + 1) * hf :=
            (Nat.mul_lt_mul_right hpos).mpr (by omega)
          _ = hf * 2 ^ (i + 1) := by ring
          _ = p - 1 := hiA3
        have hvalB2 : (fdiv p bpow (1 + 1) + fdiv p (-1 : ZMod p) (1 + 1)).val =
            (k + 2 ^ i) * hf := by
          rw [ZMod.val_add, hsum, Nat.mod_eq_of_lt (by omega)]
        have hprod : x ^ hf * b ^ ((k + 2 ^ i) * hf) = 1 := by
          have hbexp : b ^ (hf * 2 ^ i) = -1 := by
            rw [← hhalf]
            exact hb
          calc x ^ hf * b ^ ((k + 2 ^ i) * hf)
              = (x ^ hf * b ^ (k * hf)) * b ^ (hf * 2 ^ i) := by
                rw [mul_assoc, ← pow_add]
                congr 2
                ring
          _ = u * -1 := by rw [← hu, hbexp]
          _ = 1 := by rw [hu1]; ring
        have hinv2 : SqrtInv p x b (fdiv p apow (1 + 1))
            (fdiv p bpow (1 + 1) + fdiv p (-1 : ZMod p) (1 + 1)) := by
          refine ⟨i + 1, k + 2 ^ i, hiA2, by rw [hvalB2, hval2], by omega, ?_⟩
          rw [hval2, hvalB2]
          exact hprod
        obtain ⟨st, hst, hstInv, hstOdd⟩ := ih (fdiv p apow (1 + 1))
          (fdiv p bpow (1 + 1) + fdiv p (-1 : ZMod p) (1 + 1)) hinv2 hfuel2
        refine ⟨st, ?_, hstInv, hstOdd⟩
        rw [sqrtLoop]
        simp only [hev, if_true, hcond, if_pos]
        exact hst
      · -- no correction: u = 1
        have hu1 : u = 1 := by
          rcases hdich with h1 | h1
          · exact h1
          · exfalso
            apply hcond
            rw [htest, primeModulus_eq p (by omega)]
            exact (val_eq_neg_one_iff u).mpr h1
        have hinv2 : SqrtInv p x b (fdiv p apow (1 + 1)) (fdiv p bpow (1 + 1)) := by
          have hkb : (2 : ℕ) ^ (i + 1) = 2 ^ i + 2 ^ i := by ring
          refine ⟨i + 1, k, hiA2, by rw [hvalB, hval2], by omega, ?_⟩
          rw [hval2, hvalB, ← hu]
          exact hu1
        obtain ⟨st, hst, hstInv, hstOdd⟩ := ih (fdiv p apow (1 + 1))
          (fdiv p bpow (1 + 1)) hinv2 hfuel2
        refine ⟨st, ?_, hstInv, hstOdd⟩
        rw [sqrtLoop]
        simp only [hev, if_true, hcond, if_neg, if_false]
        exact hst
    · -- exit: apow odd
      refine ⟨(apow, bpow), ?_, ⟨i, k, hiA, hiB, hiK, hiP⟩, ?_⟩
      · rw [sqrtLoop]
        simp [hev]
      · show apow.val % 2 = 1
        omega

theorem sqrt_ok {p : ℕ} [Fact p.Prime] (x : ZMod p) (hx : legendre p x = some 1) :
    ∃ r : ZMod p, sqrt p x = Except.ok r ∧ r * r = x ∧
      ∀ z : ZMod p, z * z = x → r.val ≤ z.val := by
  have h2 : 2 < p := two_lt_of_legendre_one x hx
  haveI : Fact (2 < p) := ⟨h2⟩
  haveI : Fact (1 < p) := ⟨by omega⟩
  have hx0 : x ≠ 0 := by
    intro h0
    rw [h0, legendre_zero] at hx
    exact absurd (Option.some_injective _ hx) (by decide)
  have hxpow : x ^ ((p - 1) / 2) = 1 := ((legendre_char h2 x hx0).1).mp hx
  obtain ⟨nr, hnr, hnrleg⟩ := findNonResidue_ok h2
  have hnr0 : nr ≠ 0 := by
    intro h0
    rw [h0, legendre_zero] at hnrleg
    exact absurd (Option.some_injective _ hnrleg) (by decide)
  have hbpow : nr ^ ((p - 1) / 2) = -1 := ((legendre_char h2 nr hnr0).2.1).mp hnrleg
  have hinv0 : SqrtInv p x nr (-1) 0 := by
    refine ⟨0, 0, ?_, ?_, ?_, ?_⟩
    · rw [val_neg_one_eq (by omega), pow_zero, mul_one]
    · rw [ZMod.val_zero, zero_mul]
    · norm_num
    · rw [val_neg_one_eq (by omega), ZMod.val_zero, pow_zero, mul_one]
      exact ZMod.pow_card_sub_one_eq_one hx0
  have hlt0 : (-1 : ZMod p).val < 2 ^ p := by
    rw [val_neg_one_eq (by omega)]
    have := Nat.lt_two_pow p
    omega
  obtain ⟨st, hst, hstInv, hstOdd⟩ := sqrtLoop_spec h2 x nr hbpow p (-1) 0 hinv0 hlt0
  obtain ⟨i, k, hiA, hiB, hiK, hiP⟩ := hstInv
  set t := st.1.val with ht
  have hiP3 : x ^ t * nr ^ (k * t) = 1 := by
    rw [← hiB]
    exact hiP
  have hodd : Odd p := (Fact.out : p.Prime).odd_of_ne_two (by omega)
  have hi1 : 1 ≤ i := by
    rcases Nat.eq_zero_or_pos i with h0 | hgt
    · exfalso
      rw [h0, pow_zero, mul_one] at hiA
      obtain ⟨c, hc⟩ := hodd
      omega
    · exact hgt
  have hkeven : k % 2 = 0 := by
    by_contra hk1
    have hkodd : Odd k := Nat.odd_iff.mpr (by omega)
    have hi1e : i - 1 + 1 = i := by omega
    have hhalfeq : t * 2 ^ (i - 1) = (p - 1) / 2 := by
      have hstep : t * 2 ^ (i - 1) * 2 = p - 1 := by
        rw [mul_assoc, ← pow_succ, hi1e]
        exact hiA
      omega
    have hone : (x ^ t * nr ^ (k * t)) ^ 2 ^ (i - 1) = 1 := by
      rw [hiP3, one_pow]
    have hexp : (x ^ t * nr ^ (k * t)) ^ 2 ^ (i - 1) =
        x ^ (t * 2 ^ (i - 1)) * nr ^ (k * t * 2 ^ (i - 1)) := by
      rw [mul_pow, ← pow_mul, ← pow_mul]
    have hxpart : x ^ (t * 2 ^ (i - 1)) = 1 := by
      rw [hhalfeq]
      exact hxpow
    have hbpart : nr ^ (k * t * 2 ^ (i - 1)) = -1 := by
      rw [show k * t * 2 ^ (i - 1) = t * 2 ^ (i - 1) * k by ring, hhalfeq, pow_mul, hbpow]
      exact Odd.neg_one_pow hkodd
    rw [hexp, hxpart, one_mul, hbpart] at hone
    exact ZMod.neg_one_ne_one hone
  -- value bookkeeping for the tail of sqrt
  have h2i : (2 : ℕ) ≤ 2 ^ i := by
    calc (2 : ℕ) = 2 ^ 1 := (pow_one 2).symm
    _ ≤ 2 ^ i := Nat.pow_le_pow_right (by omega) hi1
  have htlt : t * 2 ≤ p - 1 := by
    calc t * 2 ≤ t * 2 ^ i := Nat.mul_le_mul_left t h2i
    _ = p - 1 := hiA
  have htplus : (st.1 + 1).val = t + 1 := by
    rw [ZMod.val_add, ZMod.val_one, Nat.mod_eq_of_lt]
    omega
  have hapow2even : (st.1 + 1).val % 2 = 0 := by
    rw [htplus]
    omega
  have hapow2val : (fdiv p (st.1 + 1) (1 + 1)).val = (t + 1) / 2 := by
    rw [halve_val h2 _ hapow2even, htplus]
  have hktdvd : (2 : ℕ) ∣ k * t := (Nat.dvd_of_mod_eq_zero hkeven).mul_right t
  have hkt_even : st.2.val % 2 = 0 := by
    rw [hiB]
    omega
  have hbpow2val : (fdiv p st.2 (1 + 1)).val = k * t / 2 := by
    rw [halve_val h2 _ hkt_even, hiB]
  set r : ZMod p := x ^ ((t + 1) / 2) * nr ^ (k * t / 2) with hr
  have hrr : r * r = x := by
    rw [hr, mul_mul_mul_comm, ← pow_add, ← pow_add,
      show (t + 1) / 2 + (t + 1) / 2 = t + 1 by omega,
      show k * t / 2 + k * t / 2 = k * t by omega,
      pow_succ]
    calc x ^ t * x * nr ^ (k * t) = x * (x ^ t * nr ^ (k * t)) := by ring
    _ = x * 1 := by rw [hiP3]
    _ = x := mul_one x
  have hr0 : r ≠ 0 := by
    intro h0
    apply hx0
    rw [← hrr, h0, mul_zero]
  have hrv1 : 1 ≤ r.val := by
    have hne : r.val ≠ 0 := fun hc => hr0 ((ZMod.val_eq_zero r).mp hc)
    omega
  have hrvp : r.val < p := ZMod.val_lt r
  have hnegval : (-r).val = p - r.val := by
    rw [ZMod.neg_val', Nat.mod_eq_of_lt]
    omega
  have hcast_other : ((p - r.val : ℕ) : ZMod p) = -r := by
    rw [← hnegval, ZMod.natCast_zmod_val]
  have hcast_root : ((r.val : ℕ) : ZMod p) = r := ZMod.natCast_zmod_val r
  have hrootval : x.val ^ (fdiv p (st.1 + 1) (1 + 1)).val % primeModulus p *
      (nr.val ^ (fdiv p st.2 (1 + 1)).val % primeModulus p) % primeModulus p = r.val := by
    rw [hapow2val, hbpow2val, test_bridge]
  have hroots : ∀ z : ZMod p, z * z = x → z = r ∨ z = -r := by
    intro z hz
    have hzero : (z - r) * (z + r) = 0 := by
      calc (z - r) * (z + r) = z * z - r * r := by ring
      _ = x - x := by rw [hz, hrr]
      _ = 0 := sub_self x
    rcases mul_eq_zero.mp hzero with hc | hc
    · left
      exact sub_eq_zero.mp hc
    · right
      exact eq_neg_of_add_eq_zero_left hc
  have hsqrt : sqrt p x =
      if r.val > primeModulus p - r.val then Except.ok ((primeModulus p - r.val : ℕ) : ZMod p)
      else Except.ok ((r.val : ℕ) : ZMod p) := by
    simp only [sqrt, if_neg hx0, hx, hnr, hst, hrootval]
    norm_num
  rw [primeModulus_eq p (by omega)] at hsqrt
  by_cases hcmp : r.val > p - r.val
  · refine ⟨-r, ?_, by rw [neg_mul_neg]; exact hrr, ?_⟩
    · rw [hsqrt, if_pos hcmp, hcast_other]
    · intro z hz
      rcases hroots z hz with rfl | rfl
      · rw [hnegval]
        omega
      · exact le_refl _
  · refine ⟨r, ?_, hrr, ?_⟩
    · rw [hsqrt, if_neg hcmp, hcast_root]
    · intro z hz
      rcases hroots z hz with rfl | rfl
      · exact le_refl _
      · rw [hnegval]
        omega

/-- C1: for every field element `x` with `legendre(x) == 1`, `sqrt(x)`
returns a field element `r` with `r * r == x`, and `r` is the canonical
root: its canonical integer view is the numerically smallest among those of
all square roots of `x` (in particular among `{root, p - root}`). -/
theorem sqrt_of_residue_correct {p : ℕ} [Fact p.Prime] (x : ZMod p)
    (hx : legendre p x = some 1) :
    ∃ r : ZMod p, sqrt p x = Except.ok r ∧ r * r = x ∧
      ∀ z : ZMod p, z * z = x → r.val ≤ z.val :=
  sqrt_ok x hx

/-- Witness for C1 at the worked toy field: the residue `3` modulo `13`. -/
theorem sqrt_of_residue_correct_witness :
    legendre 13 (3 : ZMod 13) = some 1 ∧
    (∃ r : ZMod 13, sqrt 13 3 = Except.ok r ∧ r * r = 3 ∧
      ∀ z : ZMod 13, z * z = 3 → r.val ≤ z.val) := by
  have h1 : legendre 13 (3 : ZMod 13) = some 1 := by decide
  have hp13 : Nat.Prime 13 := by norm_num
  haveI : Fact (Nat.Prime 13) := ⟨hp13⟩
  exact ⟨h1, sqrt_of_residue_correct (3 : ZMod 13) h1⟩

/-- C5: the field element `(-one()) / (one() + one())` has canonical integer
view exactly `(p - 1) / 2` in every odd prime field, so the Legendre exponent
and the sqrt correction term derived via field division agree with plain
integer arithmetic. -/
theorem half_exponent_val {p : ℕ} [Fact p.Prime] (h2 : 2 < p) :
    (fdiv p (-1 : ZMod p) (1 + 1)).val = (p - 1) / 2 :=
  exp_val h2

/-- Witness for C5 at `p = 13`: the exponent element evaluates to `6`. -/
theorem half_exponent_val_witness :
    (fdiv 13 (-1 : ZMod 13) (1 + 1)).val = (13 - 1) / 2 := by
  have hp13 : Nat.Prime 13 := by norm_num
  haveI : Fact (Nat.Prime 13) := ⟨hp13⟩
  exact half_exponent_val (by norm_num)

/-- C3: `legendre(x)` returns `0` iff `x` is the zero element; for nonzero
`x` it returns `1` exactly when `x`'s integer view raised to `(p-1)/2` mod
`p` is `1`, returns `-1` exactly when that power is `p - 1`, and panics (the
fatal invariant-violation branch, embedded as `none`) exactly on any other
outcome. -/
theorem legendre_cases {p : ℕ} [Fact p.Prime] (h2 : 2 < p) (x : ZMod p) :
    (legendre p x = some 0 ↔ x = 0) ∧
    (x ≠ 0 →
      ((legendre p x = some 1 ↔ x.val ^ ((p - 1) / 2) % p = 1) ∧
       (legendre p x = some (-1) ↔ x.val ^ ((p - 1) / 2) % p = p - 1) ∧
       (legendre p x = none ↔
         (x.val ^ ((p - 1) / 2) % p ≠ 1 ∧ x.val ^ ((p - 1) / 2) % p ≠ p - 1)))) := by
  constructor
  · constructor
    · intro h
      by_contra hne
      rw [legendre_form h2 x hne] at h
      split_ifs at h <;> simp at h
    · intro h
      rw [h]
      exact legendre_zero p
  · intro hx0
    rw [val_pow_bridge, legendre_form h2 x hx0]
    split_ifs with hA hB
    · refine ⟨⟨fun hc => absurd (Option.some_injective _ hc) (by decide),
        fun hc => by omega⟩,
        ⟨fun _ => hA, fun _ => rfl⟩,
        ⟨fun hc => by simp at hc, fun hc => absurd hA hc.2⟩⟩
    · exact ⟨⟨fun _ => hB, fun _ => rfl⟩,
        ⟨fun hc => absurd (Option.some_injective _ hc) (by decide),
          fun hc => absurd hc hA⟩,
        ⟨fun hc => by simp at hc, fun hc => absurd hB hc.1⟩⟩
    · exact ⟨⟨fun hc => by simp at hc, fun hc => absurd hc hB⟩,
        ⟨fun hc => by simp at hc, fun hc => absurd hc hA⟩,
        ⟨fun _ => ⟨hB, hA⟩, fun _ => rfl⟩⟩

/-- Witness for C3 at `p = 13`, `x = 6` (the spec's non-residue example). -/
theorem legendre_cases_witness :
    (legendre 13 (6 : ZMod 13) = some 0 ↔ (6 : ZMod 13) = 0) ∧
    ((6 : ZMod 13) ≠ 0 →
      ((legendre 13 (6 : ZMod 13) = some 1 ↔ (6 : ZMod 13).val ^ ((13 - 1) / 2) % 13 = 1) ∧
       (legendre 13 (6 : ZMod 13) = some (-1) ↔
         (6 : ZMod 13).val ^ ((13 - 1) / 2) % 13 = 13 - 1) ∧
       (legendre 13 (6 : ZMod 13) = none ↔
         ((6 : ZMod 13).val ^ ((13 - 1) / 2) % 13 ≠ 1 ∧
          (6 : ZMod 13).val ^ ((13 - 1) / 2) % 13 ≠ 13 - 1)))) := by
  have hp13 : Nat.Prime 13 := by norm_num
  haveI : Fact (Nat.Prime 13) := ⟨hp13⟩
  exact legendre_cases (by norm_num) (6 : ZMod 13)

/-- C4: for every nonzero element whose Legendre symbol is not `1`, `sqrt`
fails with the `NoSquareRoot` precondition panic and never returns a value. -/
theorem sqrt_nonresidue_fails {p : ℕ} [Fact p.Prime] (h2 : 2 < p) (x : ZMod p)
    (hx0 : x ≠ 0) (hleg : legendre p x ≠ some 1) :
    sqrt p x = Except.error SqrtError.noSquareRoot := by
  have htot := legendre_char h2 x hx0
  have hneg : legendre p x = some (-1) := by
    rcases htot.2.2 with h1 | h1
    · exact absurd (htot.1.mpr h1) hleg
    · exact htot.2.1.mpr h1
  simp only [sqrt, if_neg hx0, hneg]
  norm_num

/-- Witness for C4: the non-residue `2` modulo `13` (the spec's example). -/
theorem sqrt_nonresidue_fails_witness :
    (2 : ZMod 13) ≠ 0 ∧ legendre 13 (2 : ZMod 13) ≠ some 1 ∧
    sqrt 13 (2 : ZMod 13) = Except.error SqrtError.noSquareRoot := by
  have h1 : (2 : ZMod 13) ≠ 0 := by decide
  have hl : legendre 13 (2 : ZMod 13) ≠ some 1 := by decide
  have hp13 : Nat.Prime 13 := by norm_num
  haveI : Fact (Nat.Prime 13) := ⟨hp13⟩
  exact ⟨h1, hl, sqrt_nonresidue_fails (by norm_num) (2 : ZMod 13) h1 hl⟩

/-- C7: for every nonzero field element `x`, `legendre(x * x) == 1`. -/
theorem legendre_square_eq_one {p : ℕ} [Fact p.Prime] (h2 : 2 < p) (x : ZMod p)
    (hx : x ≠ 0) : legendre p (x * x) = some 1 := by
  have hxx : x * x ≠ 0 := mul_ne_zero hx hx
  exact (legendre_one_iff h2 (x * x) hxx).mpr ⟨x, rfl⟩

/-- Witness for C7 at `p = 13`, `x = 5`. -/
theorem legendre_square_eq_one_witness :
    (5 : ZMod 13) ≠ 0 ∧ legendre 13 ((5 : ZMod 13) * 5) = some 1 := by
  have h1 : (5 : ZMod 13) ≠ 0 := by decide
  have hp13 : Nat.Prime 13 := by norm_num
  haveI : Fact (Nat.Prime 13) := ⟨hp13⟩
  exact ⟨h1, legendre_square_eq_one (by norm_num) (5 : ZMod 13) h1⟩

theorem legendre_one_elt {p : ℕ} [Fact p.Prime] (h2 : 2 < p) :
    legendre p (1 : ZMod p) = some 1 := by
  haveI : Fact (1 < p) := ⟨by omega⟩
  have h1 : (1 : ZMod p) ≠ 0 := one_ne_zero
  exact ((legendre_char h2 1 h1).1).mpr (one_pow _)

theorem legendre_total {p : ℕ} [Fact p.Prime] (h2 : 2 < p) (e : ZMod p) :
    legendre p e = some 0 ∨ legendre p e = some 1 ∨ legendre p e = some (-1) := by
  by_cases he : e = 0
  · left
    rw [he]
    exact legendre_zero p
  · right
    obtain ⟨h1, hm1, hd⟩ := legendre_char h2 e he
    rcases hd with hc | hc
    · left
      exact h1.mpr hc
    · right
      exact hm1.mpr hc

theorem block_has_residue {p : ℕ} [Fact p.Prime] (h2 : 2 < p) (y : ℕ) :
    ∃ z ∈ List.range' y p, legendre p ((z : ℕ) : ZMod p) = some 1 := by
  refine ⟨y + ((1 : ZMod p) - (y : ZMod p)).val, ?_, ?_⟩
  · apply List.mem_range'.mpr
    exact ⟨((1 : ZMod p) - (y : ZMod p)).val, ZMod.val_lt _, by ring⟩
  · have hcast : ((y + ((1 : ZMod p) - (y : ZMod p)).val : ℕ) : ZMod p) = 1 := by
      push_cast
      rw [ZMod.natCast_zmod_val]
      ring
    rw [hcast]
    exact legendre_one_elt h2

theorem countP_blocks {p : ℕ} [Fact p.Prime] (h2 : 2 < p) :
    ∀ (c start : ℕ), c ≤ (List.range' start (c * p)).countP (isResidueAt p) := by
  intro c
  induction c with
  | zero =>
    intro start
    simp
  | succ d ih =>
    intro start
    have h1 : (d + 1) * p = d * p + p := by ring
    have hsplit : List.range' start ((d + 1) * p) =
        List.range' start p ++ List.range' (start + p) (d * p) := by
      rw [h1]
      exact (List.range'_append_1 start p (d * p)).symm
    rw [hsplit, List.countP_append]
    have hblock : 0 < (List.range' start p).countP (isResidueAt p) := by
      obtain ⟨z, hz, hres⟩ := block_has_residue h2 start
      exact List.countP_pos_iff.mpr ⟨z, hz, by simp [isResidueAt, hres]⟩
    have := ih (start + p)
    omega

theorem sqrt_rootOf {p : ℕ} [Fact p.Prime] (z : ℕ)
    (hz : legendre p ((z : ℕ) : ZMod p) = some 1) :
    sqrt p ((z : ℕ) : ZMod p) = Except.ok (rootOf p z) ∧
      rootOf p z * rootOf p z = ((z : ℕ) : ZMod p) := by
  obtain ⟨r, hr, hrr, _⟩ := sqrt_ok _ hz
  have hro : rootOf p z = r := by
    rw [rootOf, hr]
  rw [hro]
  exact ⟨hr, hrr⟩

theorem scanLoop_spec {p : ℕ} [Fact p.Prime] (h2 : 2 < p) :
    ∀ (n : ℕ) (count x : ℕ) (acc : List (ZMod p × ZMod p × ZMod p)),
      acc.length ≤ count →
      count - acc.length ≤ (List.range' x n).countP (isResidueAt p) →
      ∀ fuel, n < fuel →
      ∃ j ≤ n, scanLoop p count x acc fuel =
          some (acc ++ ((List.range' x j).filter (isResidueAt p)).map
            (fun z => (((z : ℕ) : ZMod p), rootOf p z, -(rootOf p z)))) ∧
        ((List.range' x j).filter (isResidueAt p)).length = count - acc.length := by
  intro n
  induction n with
  | zero =>
    intro count x acc hle hcnt fuel hfuel
    obtain ⟨f2, rfl⟩ : ∃ f2, fuel = f2 + 1 := ⟨fuel - 1, by omega⟩
    simp only [List.range', List.countP_nil] at hcnt
    have hlen : ¬ acc.length < count := by omega
    refine ⟨0, le_refl 0, ?_, ?_⟩
    · rw [scanLoop, if_neg hlen]
      simp [List.range']
    · simp [List.range']
      omega
  | succ m ih =>
    intro count x acc hle hcnt fuel hfuel
    by_cases hdone : acc.length < count
    · obtain ⟨f2, rfl⟩ : ∃ f2, fuel = f2 + 1 := ⟨fuel - 1, by omega⟩
      have hsplitr : List.range' x (m + 1) = x :: List.range' (x + 1) m :=
        List.range'_succ x m 1
      rcases legendre_total h2 ((x : ℕ) : ZMod p) with hl | hl | hl
      · -- candidate maps to zero: skipped
        have hres : isResidueAt p x = false := by
          simp [isResidueAt, hl]
        have hcnt2 : count - acc.length ≤ (List.range' (x + 1) m).countP (isResidueAt p) := by
          rw [hsplitr, List.countP_cons] at hcnt
          simp [hres] at hcnt
          omega
        obtain ⟨j, hj, hout, hlen⟩ := ih count (x + 1) acc hle hcnt2 f2 (by omega)
        have hfj : (List.range' x (j + 1)).filter (isResidueAt p) =
            (List.range' (x + 1) j).filter (isResidueAt p) := by
          rw [List.range'_succ, List.filter_cons, hres]
          simp
        refine ⟨j + 1, by omega, ?_, by rw [hfj]; exact hlen⟩
        have hc1 : ¬ legendre p ((x : ℕ) : ZMod p) = some (-1) := by
          rw [hl]
          decide
        have hc2 : ¬ legendre p ((x : ℕ) : ZMod p) = some 1 := by
          rw [hl]
          decide
        rw [scanLoop, if_pos hdone]
        simp only [if_neg hc1, if_neg hc2, if_pos hl]
        rw [hfj]
        exact hout
      · -- candidate is a residue: pushed
        have hres : isResidueAt p x = true := by
          simp [isResidueAt, hl]
        obtain ⟨hsq, hrr⟩ := sqrt_rootOf x hl
        have hg1 : ((x : ℕ) : ZMod p) = rootOf p x * rootOf p x := hrr.symm
        have hg2 : ((x : ℕ) : ZMod p) = -rootOf p x * -rootOf p x := by
          rw [neg_mul_neg]
          exact hrr.symm
        have hg3 : -((x : ℕ) : ZMod p) = rootOf p x * -rootOf p x := by
          rw [mul_neg, hrr]
        have hle2 : (acc ++ [(((x : ℕ) : ZMod p), rootOf p x, -(rootOf p x))]).length ≤ count := by
          simp
          omega
        have hcnt2 : count - (acc ++ [(((x : ℕ) : ZMod p), rootOf p x, -(rootOf p x))]).length ≤
            (List.range' (x + 1) m).countP (isResidueAt p) := by
          rw [hsplitr, List.countP_cons] at hcnt
          simp [hres] at hcnt
          simp
          omega
        obtain ⟨j, hj, hout, hlen⟩ := ih count (x + 1) _ hle2 hcnt2 f2 (by omega)
        have hfj : (List.range' x (j + 1)).filter (isResidueAt p) =
            x :: (List.range' (x + 1) j).filter (isResidueAt p) := by
          rw [List.range'_succ, List.filter_cons, hres]
          simp
        refine ⟨j + 1, by omega, ?_, ?_⟩
        · have hc1 : ¬ legendre p ((x : ℕ) : ZMod p) = some (-1) := by
            rw [hl]
            decide
          rw [scanLoop, if_pos hdone]
          simp only [if_neg hc1, if_pos hl, hsq]
          rw [if_pos ⟨hg1, hg2, hg3⟩, hfj, List.map_cons]
          conv_rhs => rw [List.append_cons]
          exact hout
        · rw [hfj]
          simp at hlen ⊢
          omega
      · -- candidate is a non-residue: skipped
        have hres : isResidueAt p x = false := by
          simp [isResidueAt, hl]
        have hcnt2 : count - acc.length ≤ (List.range' (x + 1) m).countP (isResidueAt p) := by
          rw [hsplitr, List.countP_cons] at hcnt
          simp [hres] at hcnt
          omega
        obtain ⟨j, hj, hout, hlen⟩ := ih count (x + 1) acc hle hcnt2 f2 (by omega)
        have hfj : (List.range' x (j + 1)).filter (isResidueAt p) =
            (List.range' (x + 1) j).filter (isResidueAt p) := by
          rw [List.range'_succ, List.filter_cons, hres]
          simp
        refine ⟨j + 1, by omega, ?_, by rw [hfj]; exact hlen⟩
        rw [scanLoop, if_pos hdone]
        simp only [if_pos hl]
        rw [hfj]
        exact hout
    · obtain ⟨f2, rfl⟩ : ∃ f2, fuel = f2 + 1 := ⟨fuel - 1, by omega⟩
      refine ⟨0, by omega, ?_, ?_⟩
      · rw [scanLoop, if_neg hdone]
        simp [List.range']
      · simp [List.range']
        omega

/-- C2: for every start and count, the residue scan returns exactly `count`
triples `(value, low_root, high_root)`; every triple satisfies
`value == low_root * low_root` and `high_root == -low_root`; and the values
are exactly the residues among the scanned candidate integers
`start, start+1, ...`, in scan order (strictly increasing candidates, none
omitted). -/
theorem quadratic_residues_at_spec {p : ℕ} [Fact p.Prime] (h2 : 2 < p)
    (start count : ℕ) :
    ∃ (n : ℕ) (out : List (ZMod p × ZMod p × ZMod p)),
      quadratic_residues_at p start count (count * p + 1) = some out ∧
      out.length = count ∧
      (∀ t ∈ out, t.1 = t.2.1 * t.2.1 ∧ t.2.2 = -t.2.1) ∧
      out.map Prod.fst =
        ((List.range' start n).filter (isResidueAt p)).map (fun z => ((z : ℕ) : ZMod p)) ∧
      ((List.range' start n).filter (isResidueAt p)).length = count := by
  have hcnt : count - ([] : List (ZMod p × ZMod p × ZMod p)).length ≤
      (List.range' start (count * p)).countP (isResidueAt p) := by
    simpa using countP_blocks h2 count start
  obtain ⟨j, hj, hout, hlen⟩ := scanLoop_spec h2 (count * p) count start []
    (by simp) hcnt (count * p + 1) (by omega)
  simp only [List.length_nil, Nat.sub_zero] at hlen
  have hout2 : quadratic_residues_at p start count (count * p + 1) =
      some (((List.range' start j).filter (isResidueAt p)).map
        (fun z => (((z : ℕ) : ZMod p), rootOf p z, -(rootOf p z)))) := by
    rw [quadratic_residues_at, hout]
    simp
  refine ⟨j, _, hout2, ?_, ?_, ?_, hlen⟩
  · simp [hlen]
  · intro t ht
    simp only [List.mem_map] at ht
    obtain ⟨z, hzL, rfl⟩ := ht
    have hres : legendre p ((z : ℕ) : ZMod p) = some 1 := by
      have hmem := List.of_mem_filter hzL
      simpa [isResidueAt] using hmem
    obtain ⟨_, hrr⟩ := sqrt_rootOf z hres
    exact ⟨hrr.symm, rfl⟩
  · rw [List.map_map]
    rfl

/-- Witness for C2 at `p = 13`, `start = 1`, `count = 3`. -/
theorem quadratic_residues_at_spec_witness :
    ∃ (n : ℕ) (out : List (ZMod 13 × ZMod 13 × ZMod 13)),
      quadratic_residues_at 13 1 3 (3 * 13 + 1) = some out ∧
      out.length = 3 ∧
      (∀ t ∈ out, t.1 = t.2.1 * t.2.1 ∧ t.2.2 = -t.2.1) ∧
      out.map Prod.fst =
        ((List.range' 1 n).filter (isResidueAt 13)).map (fun z => ((z : ℕ) : ZMod 13)) ∧
      ((List.range' 1 n).filter (isResidueAt 13)).length = 3 := by
  have hp13 : Nat.Prime 13 := by norm_num
  haveI : Fact (Nat.Prime 13) := ⟨hp13⟩
  exact quadratic_residues_at_spec (by norm_num) 1 3

/-- C6: in the toy modulus-13 field, scanning for the first three residues
from 1 yields exactly `[(1,1,12), (3,4,9), (4,2,11)]` (fuel `3 * 13 + 1`, at
which the loop provably terminates). -/
theorem scan_residues_f13_example :
    quadratic_residues_at 13 1 3 40 =
      some [(1, 1, 12), (3, 4, 9), (4, 2, 11)] := by
  decide

theorem natToBytesLE_length : ∀ (w v : ℕ), (natToBytesLE w v).length = w := by
  intro w
  induction w with
  | zero =>
    intro v
    rfl
  | succ d ih =>
    intro v
    rw [natToBytesLE, List.length_cons, ih]

theorem bytesToNatLE_natToBytesLE : ∀ (w v : ℕ), v < 256 ^ w →
    bytesToNatLE (natToBytesLE w v) = v := by
  intro w
  induction w with
  | zero =>
    intro v hv
    have h1 : (256 : ℕ) ^ 0 = 1 := pow_zero 256
    have : v = 0 := by omega
    rw [this]
    rfl
  | succ d ih =>
    intro v hv
    have hstep : (256 : ℕ) ^ (d + 1) = 256 ^ d * 256 := by ring
    rw [natToBytesLE, bytesToNatLE, ih (v / 256) (by omega)]
    omega

theorem bytesToNatLE_minAux : ∀ (fuel v : ℕ), v ≤ fuel →
    bytesToNatLE (natBytesLEMinAux fuel v) = v := by
  intro fuel
  induction fuel with
  | zero =>
    intro v hv
    have : v = 0 := by omega
    rw [this]
    rfl
  | succ d ih =>
    intro v hv
    by_cases h0 : v = 0
    · rw [h0]
      rfl
    · rw [natBytesLEMinAux, if_neg h0, bytesToNatLE, ih (v / 256) (by omega)]
      omega

theorem natBytesLEMinAux_length : ∀ (fuel v w : ℕ), v < 256 ^ w →
    (natBytesLEMinAux fuel v).length ≤ w := by
  intro fuel
  induction fuel with
  | zero =>
    intro v w _
    exact Nat.zero_le w
  | succ d ih =>
    intro v w hv
    by_cases h0 : v = 0
    · rw [h0, natBytesLEMinAux, if_pos rfl]
      exact Nat.zero_le w
    · rw [natBytesLEMinAux, if_neg h0, List.length_cons]
      have hw : w ≠ 0 := by
        intro hw0
        rw [hw0, pow_zero] at hv
        omega
      obtain ⟨w2, rfl⟩ := Nat.exists_eq_succ_of_ne_zero hw
      have hstep : (256 : ℕ) ^ (w2 + 1) = 256 ^ w2 * 256 := by ring
      have := ih (v / 256) w2 (by omega)
      omega

theorem from_biguint_custom {m : ℕ} (v : ℕ) (hv : v < 2 ^ 128) :
    CustomRing.from_biguint m v = some ⟨v⟩ := by
  have h256 : (2 : ℕ) ^ 128 = 256 ^ 16 := by norm_num
  rw [CustomRing.from_biguint, natBytesLEMin]
  by_cases h0 : v = 0
  · rw [if_pos h0, h0]
    rfl
  · rw [if_neg h0, CustomRing.from_bytes_le,
      if_neg (by have := natBytesLEMinAux_length v v 16 (by omega); omega),
      bytesToNatLE_minAux v v (le_refl v)]

theorem digitChar_isDigit {d : ℕ} (hd : d < 10) : (Nat.digitChar d).isDigit = true := by
  interval_cases d <;> decide

theorem digitChar_toNat {d : ℕ} (hd : d < 10) : (Nat.digitChar d).toNat - 48 = d := by
  interval_cases d <;> decide

theorem toDigitsCore_eq : ∀ (fuel n : ℕ) (ds : List Char), n < fuel →
    Nat.toDigitsCore 10 fuel n ds =
      (if n = 0 then [Char.ofNat 48] else (Nat.digits 10 n).reverse.map Nat.digitChar) ++ ds := by
  intro fuel
  induction fuel with
  | zero =>
    intro n ds h
    omega
  | succ f ih =>
    intro n ds h
    rw [Nat.toDigitsCore]
    by_cases h0 : n / 10 = 0
    · rw [if_pos h0]
      by_cases hn : n = 0
      · rw [if_pos hn, hn]
        rfl
      · rw [if_neg hn]
        have hn10 : n < 10 := by omega
        have hdig : Nat.digits 10 n = [n] := by
          rw [Nat.digits_def' (by norm_num : (1 : ℕ) < 10) (by omega), h0,
            Nat.mod_eq_of_lt hn10, Nat.digits_zero]
        rw [hdig, Nat.mod_eq_of_lt hn10]
        rfl
    · rw [if_neg h0]
      have hlt : n / 10 < f := by omega
      rw [ih (n / 10) _ hlt, if_neg h0]
      have hn0 : 0 < n := by omega
      rw [Nat.digits_def' (by norm_num : (1 : ℕ) < 10) hn0, if_neg (by omega : ¬ n = 0),
        List.reverse_cons, List.map_append]
      simp

theorem parseDecimalAux_digits :
    ∀ (D : List ℕ) (acc : ℕ), (∀ d ∈ D, d < 10) →
      acc * 10 ^ D.length + Nat.ofDigits 10 D.reverse < 2 ^ 128 →
      parseDecimalAux (D.map Nat.digitChar) acc =
        some (acc * 10 ^ D.length + Nat.ofDigits 10 D.reverse) := by
  intro D
  induction D with
  | nil =>
    intro acc _ _
    simp [parseDecimalAux, Nat.ofDigits]
  | cons d rest ih =>
    intro acc hd hbound
    have hd10 : d < 10 := hd d (by simp)
    rw [List.map_cons, parseDecimalAux, if_pos (digitChar_isDigit hd10),
      digitChar_toNat hd10]
    have hof : Nat.ofDigits 10 (d :: rest).reverse =
        Nat.ofDigits 10 rest.reverse + d * 10 ^ rest.length := by
      rw [List.reverse_cons, Nat.ofDigits_append, Nat.ofDigits_singleton,
        List.length_reverse]
      ring
    have hval : (acc * 10 + d) * 10 ^ rest.length + Nat.ofDigits 10 rest.reverse =
        acc * 10 ^ (d :: rest).length + Nat.ofDigits 10 (d :: rest).reverse := by
      rw [hof, List.length_cons, pow_succ]
      ring
    have hacc2 : acc * 10 + d < 2 ^ 128 := by
      have h1 : acc * 10 + d ≤ (acc * 10 + d) * 10 ^ rest.length :=
        Nat.le_mul_of_pos_right _ (pow_pos (by norm_num) _)
      omega
    rw [if_pos hacc2,
      ih (acc * 10 + d) (fun e he => hd e (by simp [he])) (by rw [hval]; exact hbound),
      hval]

theorem parseU128_repr (n : ℕ) (hn : n < 2 ^ 128) : parseU128 (Nat.repr n) = some n := by
  by_cases h0 : n = 0
  · rw [h0]
    decide
  · have hdata : (Nat.repr n).data = Nat.toDigits 10 n := rfl
    have hcore : Nat.toDigits 10 n =
        (Nat.digits 10 n).reverse.map Nat.digitChar := by
      rw [Nat.toDigits, toDigitsCore_eq (n + 1) n [] (by omega), if_neg h0,
        List.append_nil]
    have hne : Nat.digits 10 n ≠ [] := Nat.digits_ne_nil_iff_ne_zero.mpr h0
    have hlt : ∀ d ∈ (Nat.digits 10 n).reverse, d < 10 := by
      intro d hdm
      exact Nat.digits_lt_base (by norm_num) (List.mem_reverse.mp hdm)
    have hofd : Nat.ofDigits 10 ((Nat.digits 10 n).reverse).reverse = n := by
      rw [List.reverse_reverse]
      exact Nat.ofDigits_digits 10 n
    have hparse := parseDecimalAux_digits ((Nat.digits 10 n).reverse) 0 hlt
      (by rw [hofd]; simpa using hn)
    rw [hofd] at hparse
    simp only [zero_mul, zero_add] at hparse
    cases hD : (Nat.repr n).data with
    | nil =>
      exfalso
      rw [hdata, hcore] at hD
      simp [hne] at hD
    | cons c cs =>
      have hcc : parseDecimalAux (c :: cs) 0 = some n := by
        rw [show c :: cs = (Nat.digits 10 n).reverse.map Nat.digitChar from by
          rw [← hD, hdata, hcore]]
        exact hparse
      rw [parseU128, hD]
      exact hcc

/-- C9: `deserialize(serialize(x)) == x` and
`from_bytes_le(to_bytes_le(x)) == x` for every representable element, both
for the `custom_ring!` backend (any `u128` payload) and for the `oxfoi`
backend (canonical value below the Goldilocks prime). -/
theorem round_trip_laws :
    (∀ (m : ℕ) (a : CustomRing m), a.value < 2 ^ 128 →
      CustomRing.deserialize m (CustomRing.serialize a) = some a ∧
      CustomRing.from_bytes_le m (CustomRing.to_bytes_le a) = some a) ∧
    (∀ a : OxfoiElt, a.value < goldilocksP →
      OxfoiElt.deserialize (OxfoiElt.serialize a) = some a ∧
      OxfoiElt.from_bytes_le (OxfoiElt.to_bytes_le a) = some a) := by
  have h256 : (256 : ℕ) ^ 16 = 2 ^ 128 := by norm_num
  have h2568 : (256 : ℕ) ^ 8 = 2 ^ 64 := by norm_num
  have hP64 : goldilocksP < 2 ^ 64 := by decide
  have h64128 : (2 : ℕ) ^ 64 < 2 ^ 128 := by norm_num
  constructor
  · intro m a ha
    constructor
    · rw [CustomRing.serialize, CustomRing.deserialize, parseU128_repr a.value ha]
      rfl
    · rw [CustomRing.to_bytes_le, CustomRing.from_bytes_le,
        if_neg (by rw [natToBytesLE_length]; omega),
        bytesToNatLE_natToBytesLE 16 a.value (by omega)]
  · intro a ha
    constructor
    · rw [OxfoiElt.serialize]
      simp only [OxfoiElt.deserialize, parseU128_repr a.value (by omega)]
      rw [if_pos (by omega), Nat.mod_eq_of_lt ha]
    · rw [OxfoiElt.to_bytes_le, OxfoiElt.from_bytes_le,
        if_neg (by rw [natToBytesLE_length]; omega),
        bytesToNatLE_natToBytesLE 8 a.value (by omega), Nat.mod_eq_of_lt ha]

/-- Witness for C9: `7` in the modulus-13 ring and `12345` in the `oxfoi`
field. -/
theorem round_trip_laws_witness :
    (7 : ℕ) < 2 ^ 128 ∧ (12345 : ℕ) < goldilocksP ∧
    CustomRing.deserialize 13 (CustomRing.serialize (⟨7⟩ : CustomRing 13)) = some ⟨7⟩ ∧
    CustomRing.from_bytes_le 13 (CustomRing.to_bytes_le (⟨7⟩ : CustomRing 13)) = some ⟨7⟩ ∧
    OxfoiElt.deserialize (OxfoiElt.serialize ⟨12345⟩) = some ⟨12345⟩ ∧
    OxfoiElt.from_bytes_le (OxfoiElt.to_bytes_le ⟨12345⟩) = some ⟨12345⟩ := by
  have h1 : (7 : ℕ) < 2 ^ 128 := by norm_num
  have h2 : (12345 : ℕ) < goldilocksP := by decide
  obtain ⟨hc, ho⟩ := round_trip_laws
  obtain ⟨hc1, hc2⟩ := hc 13 ⟨7⟩ h1
  obtain ⟨ho1, ho2⟩ := ho ⟨12345⟩ h2
  exact ⟨h1, h2, hc1, hc2, ho1, ho2⟩

/-- Counterexample to C8 as stated: in the modulus-13 toy ring,
`from_integer(13)` (the generic `from_biguint` through the backend's
`from_bytes_le`) succeeds and yields an element whose canonical integer view
is `13`, which does not lie in `[0, 13)`. -/
theorem integer_view_escapes_range_cex :
    CustomRing.from_biguint 13 13 = some ⟨13⟩ ∧
    CustomRing.to_biguint (⟨13⟩ : CustomRing 13) = 13 ∧ ¬ ((13 : ℕ) < 13) := by
  refine ⟨by decide, by decide, by omega⟩

/-- C8 amended: ring-operation results always have their integer view in
`[0, m)`, and `from_integer(v)` round-trips the view for inputs `v < m`; but
for any byte-representable input, including `v ≥ m`, the `custom_ring!`
backend stores `v` unreduced, so the `[0, m)` bound holds only for `v < m`
(the hazard §4.2 of the spec flags). -/
theorem integer_view_range_amended {m : ℕ} (hm : 0 < m) (hm64 : m < 2 ^ 64) :
    (∀ a b : CustomRing m,
      (CustomRing.add a b).value < m ∧ (CustomRing.sub a b).value < m ∧
      (CustomRing.mul a b).value < m ∧ (CustomRing.neg a).value < m) ∧
    (∀ v : ℕ, v < 2 ^ 128 → CustomRing.from_biguint m v = some ⟨v⟩) ∧
    (∀ v : ℕ, v < m → ∃ a : CustomRing m, CustomRing.from_biguint m v = some a ∧
      CustomRing.to_biguint a = v ∧ CustomRing.to_biguint a < m) := by
  have h256 : (256 : ℕ) ^ 16 = 2 ^ 128 := by norm_num
  have h64128 : (2 : ℕ) ^ 64 < 2 ^ 128 := by norm_num
  refine ⟨?_, ?_, ?_⟩
  · intro a b
    exact ⟨Nat.mod_lt _ hm, Nat.mod_lt _ hm, Nat.mod_lt _ hm, Nat.mod_lt _ hm⟩
  · intro v hv
    exact from_biguint_custom v hv
  · intro v hv
    refine ⟨⟨v⟩, from_biguint_custom v (by omega), ?_, ?_⟩
    · rw [CustomRing.to_biguint, CustomRing.to_bytes_le,
        bytesToNatLE_natToBytesLE 16 v (by omega)]
    · rw [CustomRing.to_biguint, CustomRing.to_bytes_le,
        bytesToNatLE_natToBytesLE 16 v (by omega)]
      exact hv

/-- Witness for the amended C8 at `m = 13`, `v = 5`. -/
theorem integer_view_range_amended_witness :
    (0 : ℕ) < 13 ∧ (13 : ℕ) < 2 ^ 64 ∧ (5 : ℕ) < 2 ^ 128 ∧
    CustomRing.from_biguint 13 5 = some ⟨5⟩ := by
  have h0 : (0 : ℕ) < 13 := by norm_num
  have h64 : (13 : ℕ) < 2 ^ 64 := by norm_num
  have h5 : (5 : ℕ) < 2 ^ 128 := by norm_num
  exact ⟨h0, h64, h5, (integer_view_range_amended h0 h64).2.1 5 h5⟩

theorem powModAux_spec : ∀ (fuel e a m : ℕ), 0 < m → e < 2 ^ fuel →
    powModAux m a e fuel = a ^ e % m := by
  intro fuel
  induction fuel with
  | zero =>
    intro e a m hm he
    have h1 : (2 : ℕ) ^ 0 = 1 := pow_zero 2
    have : e = 0 := by omega
    rw [this, pow_zero]
    rfl
  | succ f ih =>
    intro e a m hm he
    rw [powModAux]
    by_cases h0 : e = 0
    · rw [if_pos h0, h0, pow_zero]
    · rw [if_neg h0]
      have hp2 : (2 : ℕ) ^ (f + 1) = 2 * 2 ^ f := by ring
      rw [ih (e / 2) (a * a % m) m hm (by omega)]
      have hmod : (a * a % m) ^ (e / 2) % m = (a * a) ^ (e / 2) % m :=
        (Nat.pow_mod (a * a) (e / 2) m).symm
      have hsq : (a * a) ^ (e / 2) = a ^ (2 * (e / 2)) := by
        rw [two_mul, pow_add]
        rw [← mul_pow]
      by_cases h1 : e % 2 = 1
      · rw [if_pos h1, hmod]
        calc a % m * ((a * a) ^ (e / 2) % m) % m = a * (a * a) ^ (e / 2) % m :=
          (Nat.mul_mod a ((a * a) ^ (e / 2)) m).symm
        _ = a ^ (2 * (e / 2) + 1) % m := by
          rw [hsq, pow_succ, mul_comm]
        _ = a ^ e % m := by
          rw [show 2 * (e / 2) + 1 = e by omega]
      · rw [if_neg h1, hmod, hsq, show 2 * (e / 2) = e by omega]

theorem powMod_spec (m a e : ℕ) (hm : 0 < m) : powMod m a e = a ^ e % m := by
  have he : e < 2 ^ (e + 1) := by
    have := Nat.lt_two_pow e
    have h2 : (2 : ℕ) ^ (e + 1) = 2 * 2 ^ e := by ring
    omega
  exact powModAux_spec (e + 1) e a m hm he

theorem cast_pow_eq_one_iff {p : ℕ} (hp : 1 < p) (a e : ℕ) :
    ((a : ZMod p) ^ e = 1) ↔ powMod p a e = 1 := by
  haveI : NeZero p := ⟨by omega⟩
  haveI : Fact (1 < p) := ⟨hp⟩
  rw [powMod_spec p a e (by omega)]
  have hval : ((a : ZMod p) ^ e).val = a ^ e % p := by
    rw [← val_pow_bridge, ZMod.val_natCast]
    exact (Nat.pow_mod a e p).symm
  constructor
  · intro h
    rw [h] at hval
    rw [← hval, ZMod.val_one p]
  · intro h
    have hv : ((a : ZMod p) ^ e).val = (1 : ZMod p).val := by
      rw [hval, h, ZMod.val_one p]
    exact ZMod.val_injective p hv

theorem goldilocks_sub_one_factors :
    goldilocksP - 1 = 2 ^ 32 * 3 * 5 * 17 * 257 * 65537 := by
  decide

theorem goldilocksP_prime : Nat.Prime goldilocksP := by
  have h1 : 1 < goldilocksP := by decide
  apply lucas_primality goldilocksP ((7 : ℕ) : ZMod goldilocksP)
  · rw [cast_pow_eq_one_iff h1]
    decide
  · intro q hq hdvd
    rw [goldilocks_sub_one_factors] at hdvd
    have hq2 : q = 2 ∨ q = 3 ∨ q = 5 ∨ q = 17 ∨ q = 257 ∨ q = 65537 := by
      rcases (hq.dvd_mul).mp hdvd with h | h
      rotate_left
      · right; right; right; right; right
        exact (Nat.prime_dvd_prime_iff_eq hq (by norm_num)).mp h
      rcases (hq.dvd_mul).mp h with h | h
      rotate_left
      · right; right; right; right; left
        exact (Nat.prime_dvd_prime_iff_eq hq (by norm_num)).mp h
      rcases (hq.dvd_mul).mp h with h | h
      rotate_left
      · right; right; right; left
        exact (Nat.prime_dvd_prime_iff_eq hq (by norm_num)).mp h
      rcases (hq.dvd_mul).mp h with h | h
      rotate_left
      · right; right; left
        exact (Nat.prime_dvd_prime_iff_eq hq (by norm_num)).mp h
      rcases (hq.dvd_mul).mp h with h | h
      rotate_left
      · right; left
        exact (Nat.prime_dvd_prime_iff_eq hq (by norm_num)).mp h
      · left
        exact (Nat.prime_dvd_prime_iff_eq hq (by norm_num)).mp (hq.dvd_of_dvd_pow h)
    intro hcontra
    rw [cast_pow_eq_one_iff h1] at hcontra
    rw [goldilocks_sub_one_factors] at hcontra
    rcases hq2 with rfl | rfl | rfl | rfl | rfl | rfl <;> revert hcontra <;> decide

/-- Counterexample to C10 as stated: in the `oxfoi` (Goldilocks) prime field,
the element with integer view `2^60 + 10^13` has a compact form
(`"10000000000000_L60"`, 18 characters) strictly shorter than its 19-digit
decimal string, yet `lower60_string` returns the full decimal string, because
the code requires the compact form to be shorter by more than 3 characters. -/
theorem lower60_shorter_not_compact_cex :
    Nat.Prime goldilocksP ∧
    (Nat.repr (((1152931504606846976 : ℕ) : ZMod goldilocksP).val % 2 ^ 60) ++ "_L60").length <
      (Nat.repr ((1152931504606846976 : ℕ) : ZMod goldilocksP).val).length ∧
    lower60_string goldilocksP ((1152931504606846976 : ℕ) : ZMod goldilocksP) =
      Nat.repr ((1152931504606846976 : ℕ) : ZMod goldilocksP).val := by
  exact ⟨goldilocksP_prime, by decide, by decide⟩

/-- C10 amended: the compact lower-60-bit form is returned exactly when it is
shorter than the full decimal string *by more than 3 characters* (so 0xfoi
elements always print as decimal, per the code comment); in particular
whenever the compact form is not shorter at all, the full decimal string is
returned. -/
theorem lower60_branch_condition {p : ℕ} (x : ZMod p) :
    ((Nat.repr (x.val % 2 ^ 60) ++ "_L60").length + 3 < (Nat.repr x.val).length →
      lower60_string p x = Nat.repr (x.val % 2 ^ 60) ++ "_L60") ∧
    (¬ ((Nat.repr (x.val % 2 ^ 60) ++ "_L60").length + 3 < (Nat.repr x.val).length) →
      lower60_string p x = Nat.repr x.val) ∧
    (¬ ((Nat.repr (x.val % 2 ^ 60) ++ "_L60").length < (Nat.repr x.val).length) →
      lower60_string p x = Nat.repr x.val) := by
  refine ⟨fun h => ?_, fun h => ?_, fun h => ?_⟩
  · rw [lower60_string, if_pos h]
  · rw [lower60_string, if_neg h]
  · rw [lower60_string, if_neg (by omega)]

/-- Witness for the amended C10 at `p = 13`, `x = 12` (decimal form kept). -/
theorem lower60_branch_condition_witness :
    lower60_string 13 (12 : ZMod 13) = Nat.repr ((12 : ZMod 13)).val := by
  exact (lower60_branch_condition (12 : ZMod 13)).2.2 (by decide)

end Scalarff
